import Mathlib

/-!
# Verification of the rate-limiter token-bucket library

A shallow embedding of the token-bucket / rolling-window / prioritized-FIFO
rate-limiter library.  JavaScript numbers are modelled as rationals (ℚ);
+Infinity for the optional bucket capacity is modelled with `Option ℚ`
(`none` = unbounded).  Timestamps from the monotonic clock are rationals
passed explicitly to every operation that reads the clock.  Promise resolve
callbacks are modelled as numeric identifiers.  Fallible operations return
`Except String`.
-/

deriving instance DecidableEq for Except

namespace RateLimiterModel

/-- A pending token listener: requested token count paired with the id of its
resolve callback.  The registry is kept sorted ascending by requested count,
mirroring the red-black tree keyed by count in the source. -/
abbrev Listener := ℚ × ℕ

/-- State of `TokenBucket` (token-bucket.ts).  Timer handles are not part of
the model; scheduling decisions are modelled as explicit return values. -/
structure TokenBucket where
  /-- `_tokenContent`: how many tokens are currently present. -/
  tokenContent : ℚ
  /-- `_maxTokens`: capacity; `none` models `Number.POSITIVE_INFINITY`. -/
  maxTokens : Option ℚ
  /-- `_continuousRestoreRatePerMs`: aggregate continuous restoration rate. -/
  continuousRestoreRatePerMs : ℚ
  /-- `_continuousRestoreLastTimestamp`: last time continuous restoration ran. -/
  continuousRestoreLastTimestamp : ℚ
  /-- `_tokenListeners`: sorted (ascending by requested count) waiter registry. -/
  tokenListeners : List Listener
  deriving Repr, DecidableEq

namespace TokenBucket

/-- `new TokenBucket(options)`: validates `initialTokens`/`maxTokens` and clamps
the initial content at the capacity (`Math.min(options.initialTokens, this._maxTokens)`).
Non-finite inputs do not exist in ℚ, so `Number.isFinite`/`Number.isNaN`
checks impose no extra condition here. -/
def create (initialTokens : ℚ) (maxTokens : Option ℚ) : Except String TokenBucket :=
  if initialTokens < 0 then
    .error "initialTokens must be positive finite number, or zero."
  else
    match maxTokens with
    | some m =>
      if m < 0 then
        .error "maxTokens must be positive, or zero."
      else
        .ok { tokenContent := min initialTokens m
              maxTokens := some m
              continuousRestoreRatePerMs := 0
              continuousRestoreLastTimestamp := 0
              tokenListeners := [] }
    | none =>
      .ok { tokenContent := initialTokens
            maxTokens := none
            continuousRestoreRatePerMs := 0
            continuousRestoreLastTimestamp := 0
            tokenListeners := [] }

/-- `_addTokensToBucket(tokenCount)`: add then clamp from above at `_maxTokens`
(no clamp from below). -/
def addTokensToBucket (b : TokenBucket) (tokenCount : ℚ) : TokenBucket :=
  let c := b.tokenContent + tokenCount
  { b with tokenContent :=
      match b.maxTokens with
      | some m => if c > m then m else c
      | none => c }

/-- `_restoreContinuousTokens()`: lazily fold continuous accrual
(`rate * (now - last)`) into the content and advance the timestamp. -/
def restoreContinuousTokens (b : TokenBucket) (now : ℚ) : TokenBucket :=
  let b1 := b.addTokensToBucket
    (b.continuousRestoreRatePerMs * (now - b.continuousRestoreLastTimestamp))
  { b1 with continuousRestoreLastTimestamp := now }

/-- `_getConsumableTokens()`: fold continuous accrual, return the content
together with the updated bucket state. -/
def getConsumableTokens (b : TokenBucket) (now : ℚ) : ℚ × TokenBucket :=
  let b1 := b.restoreContinuousTokens now
  (b1.tokenContent, b1)

/-- The loop body of `_checkListeners`: walk the sorted waiter list from the
smallest demand, resolving and removing every waiter whose key is at most
`consumable`, stopping at the first unsatisfied one.  Returns the remaining
registry and the ids resolved, in resolution order. -/
def resolveListenersLoop (consumable : ℚ) : List Listener → List Listener × List ℕ
  | [] => ([], [])
  | (k, i) :: rest =>
    if k ≤ consumable then
      let (remaining, resolved) := resolveListenersLoop consumable rest
      (remaining, i :: resolved)
    else
      ((k, i) :: rest, [])

/-- `_checkListeners()`: when waiters exist, read the consumable tokens (which
folds accrual) and resolve the ascending prefix of satisfiable waiters.
Timer rescheduling (`_scheduleCheckListeners`) is modelled separately. -/
def checkListeners (b : TokenBucket) (now : ℚ) : TokenBucket × List ℕ :=
  if b.tokenListeners.length > 0 then
    let (consumable, b1) := b.getConsumableTokens now
    let (remaining, resolved) := resolveListenersLoop consumable b1.tokenListeners
    ({ b1 with tokenListeners := remaining }, resolved)
  else
    (b, [])

/-- `consumeTokens(count)`: negative count throws; otherwise consume exactly
when `count` is at most the consumable tokens. -/
def consumeTokens (b : TokenBucket) (count now : ℚ) :
    Except String (Bool × TokenBucket) :=
  if count < 0 then
    .error "Cannot consume negative number of tokens!"
  else
    let (consumable, b1) := b.getConsumableTokens now
    if count ≤ consumable then
      .ok (true, { b1 with tokenContent := b1.tokenContent - count })
    else
      .ok (false, b1)

/-- Insertion into the sorted waiter registry; equal keys are placed after the
existing ones, matching the FIFO tie order of the tree used by the source. -/
def insertListener : List Listener → ℚ → ℕ → List Listener
  | [], k, i => [(k, i)]
  | (k0, i0) :: rest, k, i =>
    if k < k0 then (k, i) :: (k0, i0) :: rest
    else (k0, i0) :: insertListener rest k i

/-- The `count > this._maxTokens` test of `onceTokensAvailable`; a finite
count never exceeds an infinite capacity (`none`). -/
def exceedsMaxTokens (b : TokenBucket) (count : ℚ) : Bool :=
  match b.maxTokens with
  | some m => decide (count > m)
  | none => false

/-- `onceTokensAvailable(count)`: throws when `count > this._maxTokens`
(the only validation performed); otherwise registers the waiter and
immediately runs `_checkListeners`.  Returns the new state and the ids
resolved by the immediate check. -/
def onceTokensAvailable (b : TokenBucket) (count : ℚ) (i : ℕ) (now : ℚ) :
    Except String (TokenBucket × List ℕ) :=
  if b.exceedsMaxTokens count then
    .error "Cannot wait for tokens because max bucket capacity is lower!"
  else
    let b1 := { b with tokenListeners := insertListener b.tokenListeners count i }
    .ok (b1.checkListeners now)

/-- The callback a discrete restorer tick invokes:
`this._addTokensToBucket(count); this._checkListeners();`. -/
def discreteTick (b : TokenBucket) (count now : ℚ) : TokenBucket × List ℕ :=
  (b.addTokensToBucket count).checkListeners now

end TokenBucket

/-- Result of a JavaScript arithmetic expression that may be non-finite:
a finite rational, `Infinity`, `-Infinity`, or `NaN`. -/
inductive JsNumber where
  | fin (q : ℚ)
  | posInf
  | negInf
  | nan
  deriving Repr, DecidableEq

/-- `Number.isFinite`. -/
def JsNumber.isFinite : JsNumber → Bool
  | .fin _ => true
  | _ => false

/-- JavaScript division `q / r` of finite operands: division by zero yields
`Infinity`/`-Infinity` by the sign of the numerator, and `NaN` for `0 / 0`. -/
def jsDiv (q r : ℚ) : JsNumber :=
  if r = 0 then
    if q > 0 then .posInf
    else if q < 0 then .negInf
    else .nan
  else .fin (q / r)

namespace TokenBucket

/-- `_getWaitTimeForRecheck()`: time until the smallest pending demand becomes
satisfiable by continuous restoration alone.  With no listeners the minimum
demand is `Infinity` and so is the result (for a nonnegative rate).  Folds
accrual as a side effect, like the source. -/
def getWaitTimeForRecheck (b : TokenBucket) (now : ℚ) : JsNumber × TokenBucket :=
  match b.tokenListeners.head? with
  | none =>
    -- minTokenCount = Infinity; missingTokenCount = Infinity; Infinity / rate = Infinity
    (.posInf, b.restoreContinuousTokens now)
  | some (minTokenCount, _) =>
    let b1 := b.restoreContinuousTokens now
    let missingTokenCount := max 0 (minTokenCount - b1.tokenContent)
    (jsDiv missingTokenCount b1.continuousRestoreRatePerMs, b1)

/-- What `_scheduleCheckListeners` decides to do after clearing any previous
timer: arm nothing, run `_checkListeners` synchronously, or arm a timer. -/
inductive ScheduleDecision where
  | noTimer
  | checkNow
  | armTimer (waitMs : ℚ)
  deriving Repr, DecidableEq

/-- The decision logic of `_scheduleCheckListeners()`: with no listeners do
nothing; otherwise compute the wait time and arm a timer only when it is
finite and positive, check synchronously when it is `≤ 0`, and arm nothing
when it is non-finite. -/
def scheduleCheckListeners (b : TokenBucket) (now : ℚ) : ScheduleDecision × TokenBucket :=
  if b.tokenListeners.length > 0 then
    let (waitTime, b1) := b.getWaitTimeForRecheck now
    match waitTime with
    | .fin w => if w ≤ 0 then (.checkNow, b1) else (.armTimer w, b1)
    | _ => (.noTimer, b1)
  else
    (.noTimer, b)

end TokenBucket

/-- One entry of the rolling-window spend ledger: timestamp of a consumption
paired with the number of tokens spent at that instant.  The ledger is kept
sorted ascending by timestamp, mirroring the tree keyed by timestamp. -/
abbrev HistoryEntry := ℚ × ℚ

/-- State of `RollingWindowTokenBucket` (rolling-window-token-bucket.ts):
the base `TokenBucket` state plus the window parameters and the spend ledger. -/
structure RollingWindowTokenBucket where
  base : TokenBucket
  historyIntervalMs : ℚ
  maxHistoryTokens : ℚ
  history : List HistoryEntry
  deriving Repr, DecidableEq

namespace RollingWindowTokenBucket

/-- `_cleanupHistoricTokens()`: repeatedly remove the oldest ledger entry while
its timestamp is strictly below `now - historyIntervalMs`. -/
def cleanupHistoricTokens (history : List HistoryEntry) (historyIntervalMs now : ℚ) :
    List HistoryEntry :=
  history.dropWhile (fun e => decide (e.1 < now - historyIntervalMs))

/-- `_countAndCleanupHistoricTokens()`: purge expired entries, then total the
remaining spent tokens. -/
def countAndCleanupHistoricTokens (history : List HistoryEntry)
    (historyIntervalMs now : ℚ) : ℚ × List HistoryEntry :=
  let h := cleanupHistoricTokens history historyIntervalMs now
  ((h.map (fun e => e.2)).sum, h)

/-- `RollingWindowTokenBucket._getConsumableTokens()`:
`min(maxHistoryTokens - countAndCleanup(), super._getConsumableTokens())`,
evaluated in source order (ledger first, then base accrual). -/
def getConsumableTokens (b : RollingWindowTokenBucket) (now : ℚ) :
    ℚ × RollingWindowTokenBucket :=
  let (spent, h) := countAndCleanupHistoricTokens b.history b.historyIntervalMs now
  let (baseConsumable, tb) := b.base.getConsumableTokens now
  (min (b.maxHistoryTokens - spent) baseConsumable,
   { b with base := tb, history := h })

end RollingWindowTokenBucket

/-- The operations of claim C1: synchronous consumption, waiter registration,
continuous-restorer accrual, and a discrete-restorer tick.  Each carries the
monotonic-clock reading at which it runs. -/
inductive BucketOp where
  | consume (count now : ℚ)
  | once (count : ℚ) (i : ℕ) (now : ℚ)
  | accrue (now : ℚ)
  | tick (amount now : ℚ)
  deriving Repr, DecidableEq

namespace BucketOp

/-- Apply one operation to a bucket.  A thrown `InvalidArgument` leaves the
state untouched (the source throws before mutating). -/
def apply (b : TokenBucket) : BucketOp → TokenBucket
  | consume count now =>
    match b.consumeTokens count now with
    | .ok (_, b1) => b1
    | .error _ => b
  | once count i now =>
    match b.onceTokensAvailable count i now with
    | .ok (b1, _) => b1
    | .error _ => b
  | accrue now => b.restoreContinuousTokens now
  | tick amount now => (b.discreteTick amount now).1

/-- Validity of one operation in a given state: the clock is monotonic
(`now` is not before the last accrual timestamp), and a discrete tick
restores a nonnegative amount (the spec's `Rate.amount ≥ 0`). -/
def valid (b : TokenBucket) : BucketOp → Bool
  | consume _ now => decide (b.continuousRestoreLastTimestamp ≤ now)
  | once _ _ now => decide (b.continuousRestoreLastTimestamp ≤ now)
  | accrue now => decide (b.continuousRestoreLastTimestamp ≤ now)
  | tick amount now =>
    decide (0 ≤ amount) && decide (b.continuousRestoreLastTimestamp ≤ now)

end BucketOp

/-- Run a sequence of operations. -/
def runOps (b : TokenBucket) : List BucketOp → TokenBucket
  | [] => b
  | op :: rest => runOps (op.apply b) rest

/-- A whole sequence is valid when each operation is valid in the state in
which it executes. -/
def validRun (b : TokenBucket) : List BucketOp → Bool
  | [] => true
  | op :: rest => op.valid b && validRun (op.apply b) rest

/-- The state-boundedness invariant of C1, plus the facts needed to preserve
it: nonnegative content, content at most the capacity, nonnegative aggregate
continuous rate. -/
def goodState (b : TokenBucket) : Bool :=
  decide (0 ≤ b.tokenContent) &&
  (match b.maxTokens with
   | some m => decide (b.tokenContent ≤ m)
   | none => true) &&
  decide (0 ≤ b.continuousRestoreRatePerMs)

/-- Modelled from the spec: `TokenBucket.restoreTokens(count)` is absent from
the sources (only the limiter's forwarding call and the spec describe it);
per the spec's round-trip property and discrete-restoration behaviour it
restores `count` tokens to the bucket (clamped at the capacity) and
re-evaluates the waiters. -/
def TokenBucket.restoreTokens (b : TokenBucket) (count now : ℚ) :
    TokenBucket × List ℕ :=
  (b.addTokensToBucket count).checkListeners now

/-- A limiter awaiter; the resolve/reject callbacks are summarised by a
numeric identity (awaiters are matched by identity in the source). -/
structure Awaiter where
  tokenCount : ℚ
  id : ℕ
  deriving Repr, DecidableEq

/-- The limiter's `_awaiters` collection: groups of awaiters keyed by
priority, kept sorted ascending by priority (mirroring the tree), each group
a FIFO queue with its front at the head. -/
abbrev AwaiterQueues := List (ℚ × List Awaiter)

namespace AwaiterQueues

/-- `_addAwaiter(priority, awaiter)`: push onto the existing group's back, or
insert a fresh single-element group at its sorted position. -/
def addAwaiter : AwaiterQueues → ℚ → Awaiter → AwaiterQueues
  | [], p, a => [(p, [a])]
  | (p0, q) :: rest, p, a =>
    if p = p0 then (p0, q ++ [a]) :: rest
    else if p < p0 then (p, [a]) :: (p0, q) :: rest
    else (p0, q) :: addAwaiter rest p a

/-- Add a whole arrival sequence of `(priority, awaiter)` pairs in order. -/
def addAll (qs : AwaiterQueues) : List (ℚ × Awaiter) → AwaiterQueues
  | [] => qs
  | (p, a) :: rest => addAll (addAwaiter qs p a) rest

/-- What the watcher reads: `this._awaiters.end` (the maximum priority) and
`queue?.peekFront()`. -/
def selectNext (qs : AwaiterQueues) : Option (ℚ × Awaiter) :=
  match qs.getLast? with
  | none => none
  | some (p, q) =>
    match q.head? with
    | none => none
    | some a => some (p, a)

/-- Total number of queued awaiters. -/
def totalCount (qs : AwaiterQueues) : ℕ :=
  (qs.map (fun g => g.2.length)).sum

/-- The service sequence on the reversed (descending-priority) group list:
repeatedly serve the front of the first group, dropping a group once empty.
This is the order in which successive watcher steps grant awaiters when no
new arrivals intervene. -/
def drainRev : AwaiterQueues → List (ℚ × Awaiter)
  | [] => []
  | (_, []) :: _ => []
  | (p, a :: rest) :: gs =>
    (p, a) :: (if rest.isEmpty then drainRev gs else drainRev ((p, rest) :: gs))
termination_by qs => totalCount qs
decreasing_by
  all_goals simp [totalCount]

/-- The service sequence of the watcher chain: the groups are sorted
ascending, and each step serves the front of the *last* (highest-priority)
group. -/
def drain (qs : AwaiterQueues) : List (ℚ × Awaiter) :=
  drainRev qs.reverse

end AwaiterQueues

/-- State of the limiter (rate-limiter.ts) needed by the claims under
verification; timers, the watcher chain and `_lastConsumed` are modelled as
explicit arguments/results of the individual operations. -/
structure PrioritizedFifoRateLimiter where
  tokenBucket : TokenBucket
  minStaggerTime : ℚ
  awaiters : AwaiterQueues
  deriving Repr, DecidableEq

/-- `PrioritizedFifoRateLimiter.restoreTokens(count)`:
`this._tokenBucket.restoreTokens(count)` — a pure forward to the bucket. -/
def PrioritizedFifoRateLimiter.restoreTokens
    (l : PrioritizedFifoRateLimiter) (count now : ℚ) :
    PrioritizedFifoRateLimiter × List ℕ :=
  let (b1, resolved) := l.tokenBucket.restoreTokens count now
  ({ l with tokenBucket := b1 }, resolved)

/-! ## The watcher's consumption/cancellation race (claim C4)

The watcher step races `consumePromise` (listed first) against
`cancelPromise`.  Promises are modelled by their settlement outcome on a
discrete timeline; `Promise.race` settles with the earlier of the two
settlements, and when both are already settled it adopts the promise listed
first.  The reaction to the settlement (the continuation of the `try`, or the
`catch` body) does **not** run at the settlement instant: it is queued and
runs at a strictly later instant `reactAt`.  In particular `cancelConsume()`
is only invoked inside the `catch` at `reactAt`, so the in-flight consumption
can still succeed — and spend tokens — in the microtask gap between the
cancellation settling and the reaction running. -/

/-- Settlement state of a promise on a discrete timeline. -/
inductive PromiseState where
  | pending
  | fulfilledAt (t : ℕ)
  | rejectedAt (t : ℕ)
  deriving Repr, DecidableEq

/-- When (if ever) a promise settles. -/
def PromiseState.settleTime : PromiseState → Option ℕ
  | .pending => none
  | .fulfilledAt t => some t
  | .rejectedAt t => some t

/-- Which of two raced promises `Promise.race([p1, p2])` adopts:
`some true` = the first, `some false` = the second, `none` = never settles.
A tie goes to the first-listed promise, whose reaction was attached first. -/
def raceFirstWins (p1 p2 : PromiseState) : Option Bool :=
  match p1.settleTime, p2.settleTime with
  | some t1, some t2 => some (decide (t1 ≤ t2))
  | some _, none => some true
  | none, some _ => some false
  | none, none => none

/-- Behaviour of the bucket's `consumeTokensAsync` handle: `grantAt` is the
instant at which the bucket's retry loop succeeds in consuming the tokens
(if ever, absent cancellation); `cancelAt` is the instant the handle's
`cancel` function actually runs (if ever) — for the watcher that is the
instant of the `catch` reaction, not of the cancellation signal.  `cancel`
running before the grant aborts the in-flight wait — the promise rejects and
no tokens are spent; a grant at or before `cancelAt` has already fulfilled
the promise and spent the tokens, and `cancel` has no effect. -/
def consumeAsyncRun (grantAt cancelAt : Option ℕ) : PromiseState × Bool :=
  match grantAt, cancelAt with
  | some g, some c =>
    if g ≤ c then (.fulfilledAt g, true) else (.rejectedAt c, false)
  | some g, none => (.fulfilledAt g, true)
  | none, some c => (.rejectedAt c, false)
  | none, none => (.pending, false)

/-- Outcome of one watcher service step for its head awaiter. -/
inductive StepOutcome where
  | resolvedAwaiter
  | propagatedCanceled
  | stillWaiting
  deriving Repr, DecidableEq

/-- The watcher step of `_recreateWatcher` serving one awaiter: race the
consumption (listed first) against the step's cancellation signal.  If the
consumption wins the race, its reaction resolves the awaiter (the tokens were
spent at the grant).  If the cancellation wins, the `catch` reaction runs at
the strictly later instant `reactAt`: only then does it call
`cancelConsume()`, await the consumption's settlement, and rethrow the
cancellation — so a grant landing at or before `reactAt` has already spent
the tokens and `cancelConsume` is a no-op, while a grant that has not yet
landed is aborted.  In neither cancellation case is the awaiter resolved or
removed.  Returns the step outcome and the bucket's token content
afterwards.  (Faithful use requires `reactAt` after the race's settlement;
the theorems carry that hypothesis.) -/
def watcherStep (tokens demand : ℚ) (grantAt cancelSignalAt : Option ℕ)
    (reactAt : ℕ) : StepOutcome × ℚ :=
  let consumeUncanceled := (consumeAsyncRun grantAt none).1
  let cancelPromise : PromiseState :=
    match cancelSignalAt with
    | some c => .rejectedAt c
    | none => .pending
  match raceFirstWins consumeUncanceled cancelPromise with
  | some true =>
    -- consumption settled first (or simultaneously): resolve the awaiter
    (.resolvedAwaiter, tokens - demand)
  | some false =>
    -- cancellation settled first: the catch runs at reactAt, where it calls
    -- cancelConsume() and then rethrows; tokens are spent iff the grant
    -- landed by then
    let run := consumeAsyncRun grantAt (some reactAt)
    (.propagatedCanceled, if run.2 then tokens - demand else tokens)
  | none => (.stillWaiting, tokens)

/-! ## Theorems -/

/-- C10: with `0 ≤ maxTokens < initialTokens` the constructor succeeds and
clamps the initial content to `maxTokens = min(initialTokens, maxTokens)`. -/
theorem c10_constructor_clamps_initial_tokens (initialTokens m : ℚ)
    (h0 : 0 ≤ m) (hlt : m < initialTokens) :
    ∃ b, TokenBucket.create initialTokens (some m) = .ok b ∧
      b.tokenContent = m ∧ b.tokenContent = min initialTokens m := by
  have hinit : ¬ initialTokens < 0 := by linarith
  have hm : ¬ m < 0 := by linarith
  refine ⟨{ tokenContent := min initialTokens m
            maxTokens := some m
            continuousRestoreRatePerMs := 0
            continuousRestoreLastTimestamp := 0
            tokenListeners := [] }, ?_, ?_, rfl⟩
  · simp [TokenBucket.create, hinit, hm]
  · simpa using min_eq_right hlt.le

theorem c10_constructor_clamps_initial_tokens_witness :
    ∃ b, TokenBucket.create 5 (some 3) = .ok b ∧
      b.tokenContent = 3 ∧ b.tokenContent = min 5 3 :=
  c10_constructor_clamps_initial_tokens 5 3 (by decide) (by decide)

/-- A concrete bucket used to exhibit counterexamples: 5 tokens, capacity 5,
no continuous restoration, no pending waiters. -/
def cex9 : TokenBucket :=
  { tokenContent := 5
    maxTokens := some 5
    continuousRestoreRatePerMs := 0
    continuousRestoreLastTimestamp := 0
    tokenListeners := [] }

/-- C9 counterexample: `-1` is negative and does not exceed `maxTokens = 5`,
yet `onceTokensAvailable(-1)` does **not** raise: it registers the waiter,
which the immediate check resolves at once.  So "negative count raises
InvalidArgument" fails on the code. -/
theorem c9_negative_count_not_rejected :
    (-1 : ℚ) < 0 ∧
      cex9.onceTokensAvailable (-1) 7 0 = .ok (cex9, [7]) := by
  refine ⟨by norm_num, ?_⟩
  norm_num [cex9, TokenBucket.onceTokensAvailable, TokenBucket.exceedsMaxTokens,
    TokenBucket.insertListener, TokenBucket.checkListeners,
    TokenBucket.getConsumableTokens, TokenBucket.restoreContinuousTokens,
    TokenBucket.addTokensToBucket, TokenBucket.resolveListenersLoop]

/-- C9 amended: `onceTokensAvailable(count)` raises `InvalidArgument` iff
`count` strictly exceeds the bucket capacity; any other count — negative
counts included — registers the waiter and runs the immediate check without
raising. -/
theorem c9_once_tokens_available_validation (b : TokenBucket) (count : ℚ)
    (i : ℕ) (now : ℚ) :
    ((∃ e, b.onceTokensAvailable count i now = .error e) ↔
      (∃ m, b.maxTokens = some m ∧ m < count)) ∧
    ((∀ m, b.maxTokens = some m → count ≤ m) →
      b.onceTokensAvailable count i now =
        .ok (({ b with tokenListeners :=
                  TokenBucket.insertListener b.tokenListeners count i
              } : TokenBucket).checkListeners now)) := by
  have hiff : b.exceedsMaxTokens count = true ↔
      ∃ m, b.maxTokens = some m ∧ m < count := by
    cases hm : b.maxTokens with
    | none => simp [TokenBucket.exceedsMaxTokens, hm]
    | some m => simp [TokenBucket.exceedsMaxTokens, hm]
  constructor
  · rw [← hiff]
    constructor
    · intro ⟨e, he⟩
      by_cases hex : b.exceedsMaxTokens count
      · exact hex
      · simp [TokenBucket.onceTokensAvailable, hex] at he
    · intro hex
      exact ⟨"Cannot wait for tokens because max bucket capacity is lower!",
        by simp [TokenBucket.onceTokensAvailable, hex]⟩
  · intro hle
    have hex : ¬ b.exceedsMaxTokens count = true := by
      rw [hiff]
      rintro ⟨m, hm, hc⟩
      exact absurd (hle m hm) (not_le.mpr hc)
    have hex2 : b.exceedsMaxTokens count = false := by
      cases h : b.exceedsMaxTokens count
      · rfl
      · exact absurd h hex
    simp [TokenBucket.onceTokensAvailable, hex2]

theorem c9_once_tokens_available_validation_witness :
    ∃ e, cex9.onceTokensAvailable 7 0 0 = .error e :=
  (c9_once_tokens_available_validation cex9 7 0 0).1.mpr ⟨5, rfl, by decide⟩

/-- C6: `consumeTokens` first folds pending continuous accrual; for
`count ≥ 0` it then subtracts `count` and returns `true` exactly when `count`
is at most the consumable tokens (the folded content), and otherwise returns
`false` leaving the folded state otherwise unchanged; a negative `count`
raises `InvalidArgument`. -/
theorem c6_consume_tokens_spec (b : TokenBucket) (count now : ℚ) :
    (0 ≤ count →
      b.consumeTokens count now =
        (if count ≤ (b.restoreContinuousTokens now).tokenContent then
          .ok (true, { b.restoreContinuousTokens now with
                        tokenContent :=
                          (b.restoreContinuousTokens now).tokenContent - count })
        else
          .ok (false, b.restoreContinuousTokens now))) ∧
    (count < 0 →
      b.consumeTokens count now =
        .error "Cannot consume negative number of tokens!") := by
  constructor
  · intro h
    have hn : ¬ count < 0 := not_lt.mpr h
    by_cases hc : count ≤ (b.restoreContinuousTokens now).tokenContent
    · simp [TokenBucket.consumeTokens, TokenBucket.getConsumableTokens, hn, hc]
    · simp [TokenBucket.consumeTokens, TokenBucket.getConsumableTokens, hn, hc]
  · intro h
    simp [TokenBucket.consumeTokens, h]

theorem c6_consume_tokens_spec_witness :
    cex9.consumeTokens 2 0 =
      .ok (true, { cex9 with tokenContent := 3 }) := by
  have h := (c6_consume_tokens_spec cex9 2 0).1 (by norm_num)
  rw [h]
  norm_num [cex9, TokenBucket.restoreContinuousTokens, TokenBucket.addTokensToBucket]

/-- C8: the limiter's `restoreTokens(count)` forwards to the (spec-modelled)
bucket restore operation, touching nothing else of the limiter's state, and
that operation adds exactly `count` tokens to the bucket before clamping at
the capacity. -/
theorem c8_restore_tokens_forwards (l : PrioritizedFifoRateLimiter)
    (count now : ℚ) :
    (l.restoreTokens count now).1.tokenBucket =
        (l.tokenBucket.restoreTokens count now).1 ∧
    (l.restoreTokens count now).2 = (l.tokenBucket.restoreTokens count now).2 ∧
    (l.restoreTokens count now).1.awaiters = l.awaiters ∧
    (l.restoreTokens count now).1.minStaggerTime = l.minStaggerTime ∧
    (l.tokenBucket.restoreTokens count now =
      (l.tokenBucket.addTokensToBucket count).checkListeners now) ∧
    ((l.tokenBucket.addTokensToBucket count).tokenContent =
      match l.tokenBucket.maxTokens with
      | some m => min (l.tokenBucket.tokenContent + count) m
      | none => l.tokenBucket.tokenContent + count) := by
  refine ⟨rfl, rfl, rfl, rfl, rfl, ?_⟩
  rcases hm : l.tokenBucket.maxTokens with _ | m
  · simp [TokenBucket.addTokensToBucket, hm]
  · simp only [TokenBucket.addTokensToBucket, hm]
    by_cases hgt : l.tokenBucket.tokenContent + count > m
    · simp [hgt, min_eq_right hgt.le]
    · simp [hgt, min_eq_left (not_lt.mp hgt)]

/-- C4 counterexample: cancellation settles at 1, strictly before the
consumption grant at 2 — so "cancellation wins before consumption succeeds".
The `catch` reaction only runs at 3, and the grant lands in that microtask
gap: the step propagates `Canceled` without resolving the awaiter, yet the
bucket's tokens ARE spent (10 − 3 ≠ 10), and the consumption promise is
fulfilled, not canceled.  This refutes "the in-flight consumption is
canceled ... and the bucket's tokens are untouched" (and, with the awaiter
unresolved, the spent tokens are lost to this step). -/
theorem c4_cancel_first_can_still_spend_tokens :
    (1 : ℕ) < 2 ∧ (1 : ℕ) < 3 ∧ (2 : ℕ) ≤ 3 ∧
    watcherStep 10 3 (some 2) (some 1) 3 =
      (.propagatedCanceled, 10 - 3) ∧
    (consumeAsyncRun (some 2) (some 3)).1 = .fulfilledAt 2 ∧
    (10 : ℚ) - 3 ≠ 10 := by
  refine ⟨by decide, by decide, by decide, rfl, rfl, by norm_num⟩

/-- C4 amended: if the consumption settled no later than the cancellation
signal (including the simultaneous case, where the consumption reaction is
attached first), the awaiter is resolved and the spent tokens are kept.  If
the cancellation settled strictly first, `Canceled` propagates and the step
does not resolve the awaiter; then (b1) when no grant has landed by the time
the `catch` reaction runs, the in-flight consumption is canceled (its promise
rejects) and the tokens are untouched, but (b2) when the grant lands in the
gap between the cancellation settling and the reaction running, the tokens
are spent anyway while the awaiter is left unresolved.  `reactAt` is
constrained to lie strictly after the cancellation settlement, as reactions
do. -/
theorem c4_consumption_wins_or_cancel_aborts (tokens demand : ℚ) :
    (∀ (g reactAt : ℕ) (c : Option ℕ), (∀ ct, c = some ct → g ≤ ct) →
      watcherStep tokens demand (some g) c reactAt =
        (.resolvedAwaiter, tokens - demand)) ∧
    (∀ (ct reactAt : ℕ) (gOpt : Option ℕ), ct < reactAt →
      (∀ g, gOpt = some g → ct < g) →
      (watcherStep tokens demand gOpt (some ct) reactAt).1 =
          .propagatedCanceled ∧
      ((∀ g, gOpt = some g → reactAt < g) →
        watcherStep tokens demand gOpt (some ct) reactAt =
          (.propagatedCanceled, tokens) ∧
        (consumeAsyncRun gOpt (some reactAt)).1 = .rejectedAt reactAt) ∧
      (∀ g, gOpt = some g → g ≤ reactAt →
        watcherStep tokens demand gOpt (some ct) reactAt =
          (.propagatedCanceled, tokens - demand))) := by
  constructor
  · intro g reactAt c hc
    rcases c with _ | ct
    · simp [watcherStep, consumeAsyncRun, raceFirstWins, PromiseState.settleTime]
    · have hg : g ≤ ct := hc ct rfl
      simp [watcherStep, consumeAsyncRun, raceFirstWins, PromiseState.settleTime,
        hg]
  · intro ct reactAt gOpt hreact hg
    rcases gOpt with _ | g
    · refine ⟨?_, ?_, ?_⟩
      · simp [watcherStep, consumeAsyncRun, raceFirstWins,
          PromiseState.settleTime]
      · intro _
        constructor <;>
          simp [watcherStep, consumeAsyncRun, raceFirstWins,
            PromiseState.settleTime]
      · intro g hgg
        cases hgg
    · have hlt := hg g rfl
      have hng : ¬ g ≤ ct := not_le.mpr hlt
      refine ⟨?_, ?_, ?_⟩
      · simp [watcherStep, consumeAsyncRun, raceFirstWins,
          PromiseState.settleTime, hng]
      · intro h
        have hr := h g rfl
        have hnr : ¬ g ≤ reactAt := not_le.mpr hr
        constructor <;>
          simp [watcherStep, consumeAsyncRun, raceFirstWins,
            PromiseState.settleTime, hng, hnr]
      · intro g2 hg2 hle
        cases hg2
        simp [watcherStep, consumeAsyncRun, raceFirstWins,
          PromiseState.settleTime, hng, hle]

/-- The boundedness invariant of C1 as a proposition: nonnegative content,
content within the capacity, nonnegative aggregate continuous rate. -/
def GoodStateProp (b : TokenBucket) : Prop :=
  0 ≤ b.tokenContent ∧
  (∀ m, b.maxTokens = some m → b.tokenContent ≤ m) ∧
  0 ≤ b.continuousRestoreRatePerMs

theorem goodState_iff (b : TokenBucket) :
    goodState b = true ↔ GoodStateProp b := by
  unfold goodState GoodStateProp
  cases hm : b.maxTokens with
  | none => simp [hm]
  | some m => simp [hm, and_assoc]

theorem addTokensToBucket_content_none (b : TokenBucket) (t : ℚ)
    (hm : b.maxTokens = none) :
    (b.addTokensToBucket t).tokenContent = b.tokenContent + t := by
  unfold TokenBucket.addTokensToBucket
  rw [hm]

theorem addTokensToBucket_content_some (b : TokenBucket) (t m : ℚ)
    (hm : b.maxTokens = some m) :
    (b.addTokensToBucket t).tokenContent =
      if b.tokenContent + t > m then m else b.tokenContent + t := by
  unfold TokenBucket.addTokensToBucket
  rw [hm]

/-- Adding a nonnegative amount (with the clamp at the capacity) preserves
the boundedness invariant. -/
theorem addTokensToBucket_good (b : TokenBucket) (t : ℚ)
    (hb : GoodStateProp b) (ht : 0 ≤ t) :
    GoodStateProp (b.addTokensToBucket t) := by
  obtain ⟨h0, hmax, hr⟩ := hb
  refine ⟨?_, ?_, hr⟩
  · rcases hm : b.maxTokens with _ | m
    · rw [addTokensToBucket_content_none b t hm]
      linarith
    · rw [addTokensToBucket_content_some b t m hm]
      have hcm := hmax m hm
      by_cases hgt : b.tokenContent + t > m
      · rw [if_pos hgt]
        linarith
      · rw [if_neg hgt]
        linarith
  · intro m2 hm2
    have hm2b : b.maxTokens = some m2 := hm2
    rw [addTokensToBucket_content_some b t m2 hm2b]
    by_cases hgt : b.tokenContent + t > m2
    · rw [if_pos hgt]
    · rw [if_neg hgt]
      linarith [not_lt.mp hgt]

/-- Lazy continuous accrual over a monotonic clock preserves the invariant. -/
theorem restoreContinuousTokens_good (b : TokenBucket) (now : ℚ)
    (hb : GoodStateProp b)
    (hnow : b.continuousRestoreLastTimestamp ≤ now) :
    GoodStateProp (b.restoreContinuousTokens now) := by
  have ht : 0 ≤ b.continuousRestoreRatePerMs *
      (now - b.continuousRestoreLastTimestamp) :=
    mul_nonneg hb.2.2 (by linarith)
  have hg := addTokensToBucket_good b _ hb ht
  exact ⟨hg.1, hg.2.1, hg.2.2⟩

/-- A check pass only folds accrual and removes waiters: it preserves the
invariant. -/
theorem checkListeners_good (b : TokenBucket) (now : ℚ)
    (hb : GoodStateProp b)
    (hnow : b.continuousRestoreLastTimestamp ≤ now) :
    GoodStateProp (b.checkListeners now).1 := by
  unfold TokenBucket.checkListeners
  by_cases hlen : b.tokenListeners.length > 0
  · rw [if_pos hlen]
    have hg := restoreContinuousTokens_good b now hb hnow
    exact ⟨hg.1, hg.2.1, hg.2.2⟩
  · rw [if_neg hlen]
    exact hb

/-- `consumeTokens` at a nonnegative count, written out by cases. -/
theorem consumeTokens_nonneg (b : TokenBucket) (count now : ℚ)
    (h : ¬ count < 0) :
    b.consumeTokens count now =
      if count ≤ (b.restoreContinuousTokens now).tokenContent then
        .ok (true, { b.restoreContinuousTokens now with
          tokenContent := (b.restoreContinuousTokens now).tokenContent - count })
      else .ok (false, b.restoreContinuousTokens now) := by
  simp [TokenBucket.consumeTokens, TokenBucket.getConsumableTokens, h]

/-- One valid operation preserves the invariant. -/
theorem apply_good (b : TokenBucket) (op : BucketOp) (hb : GoodStateProp b)
    (hv : op.valid b = true) : GoodStateProp (op.apply b) := by
  cases op with
  | consume count now =>
    have hnow : b.continuousRestoreLastTimestamp ≤ now := by
      simpa [BucketOp.valid] using hv
    simp only [BucketOp.apply]
    by_cases hneg : count < 0
    · rw [TokenBucket.consumeTokens, if_pos hneg]
      exact hb
    · rw [consumeTokens_nonneg b count now hneg]
      have hg := restoreContinuousTokens_good b now hb hnow
      by_cases hc : count ≤ (b.restoreContinuousTokens now).tokenContent
      · rw [if_pos hc]
        refine ⟨?_, ?_, hg.2.2⟩
        · show 0 ≤ (b.restoreContinuousTokens now).tokenContent - count
          linarith
        · intro m hm
          have hm2 : (b.restoreContinuousTokens now).maxTokens = some m := hm
          have h1 := hg.2.1 m hm2
          have hcount : 0 ≤ count := not_lt.mp hneg
          show (b.restoreContinuousTokens now).tokenContent - count ≤ m
          linarith
      · rw [if_neg hc]
        show GoodStateProp (b.restoreContinuousTokens now)
        exact hg
  | once count i now =>
    have hnow : b.continuousRestoreLastTimestamp ≤ now := by
      simpa [BucketOp.valid] using hv
    simp only [BucketOp.apply]
    cases hex : b.exceedsMaxTokens count
    · rw [TokenBucket.onceTokensAvailable, if_neg (by rw [hex]; simp)]
      exact checkListeners_good
        { b with tokenListeners :=
            TokenBucket.insertListener b.tokenListeners count i }
        now ⟨hb.1, hb.2.1, hb.2.2⟩ hnow
    · rw [TokenBucket.onceTokensAvailable, if_pos (by rw [hex])]
      exact hb
  | accrue now =>
    have hnow : b.continuousRestoreLastTimestamp ≤ now := by
      simpa [BucketOp.valid] using hv
    simp only [BucketOp.apply]
    exact restoreContinuousTokens_good b now hb hnow
  | tick amount now =>
    have hv2 : 0 ≤ amount ∧ b.continuousRestoreLastTimestamp ≤ now := by
      simpa [BucketOp.valid] using hv
    have hadd := addTokensToBucket_good b amount hb hv2.1
    simp only [BucketOp.apply, TokenBucket.discreteTick]
    exact checkListeners_good (b.addTokensToBucket amount) now hadd hv2.2

/-- A valid run preserves the invariant. -/
theorem runOps_good : ∀ (ops : List BucketOp) (b : TokenBucket),
    GoodStateProp b → validRun b ops = true → GoodStateProp (runOps b ops)
  | [], _, hb, _ => hb
  | op :: rest, b, hb, hv => by
    rw [validRun] at hv
    simp only [Bool.and_eq_true] at hv
    exact runOps_good rest (op.apply b) (apply_good b op hb hv.1) hv.2

/-- C1: under any valid sequence of consumption, waiter registration,
continuous accrual and discrete ticks, the token content stays nonnegative
and never exceeds the capacity.  (Quantifying over all operation lists covers
every intermediate state of any longer sequence.) -/
theorem c1_token_content_stays_bounded (b : TokenBucket) (ops : List BucketOp)
    (hb : goodState b = true) (hv : validRun b ops = true) :
    0 ≤ (runOps b ops).tokenContent ∧
      ∀ m, (runOps b ops).maxTokens = some m →
        (runOps b ops).tokenContent ≤ m := by
  have hg := runOps_good ops b ((goodState_iff b).mp hb) hv
  exact ⟨hg.1, hg.2.1⟩

theorem c1_token_content_stays_bounded_witness :
    0 ≤ (runOps cex9 [.once 3 0 1, .tick 5 2, .consume 3 3, .accrue 4]).tokenContent ∧
    ∀ m, (runOps cex9 [.once 3 0 1, .tick 5 2, .consume 3 3, .accrue 4]).maxTokens
        = some m →
      (runOps cex9 [.once 3 0 1, .tick 5 2, .consume 3 3, .accrue 4]).tokenContent
        ≤ m := by
  apply c1_token_content_stays_bounded cex9
    [.once 3 0 1, .tick 5 2, .consume 3 3, .accrue 4]
  · rfl
  · norm_num [validRun, BucketOp.valid, BucketOp.apply, cex9,
      TokenBucket.onceTokensAvailable, TokenBucket.exceedsMaxTokens,
      TokenBucket.insertListener, TokenBucket.checkListeners,
      TokenBucket.getConsumableTokens, TokenBucket.restoreContinuousTokens,
      TokenBucket.addTokensToBucket, TokenBucket.resolveListenersLoop,
      TokenBucket.consumeTokens, TokenBucket.discreteTick]

/-- On a ledger sorted ascending by timestamp, the cleanup loop — which
removes entries from the oldest end while they are expired — removes exactly
the expired entries. -/
theorem dropWhile_expired_eq_filter_of_sorted (x : ℚ) :
    ∀ l : List HistoryEntry, l.Pairwise (fun e1 e2 => e1.1 ≤ e2.1) →
      l.dropWhile (fun e => decide (e.1 < x)) =
        l.filter (fun e => decide (x ≤ e.1))
  | [], _ => rfl
  | e :: rest, h => by
    rcases List.pairwise_cons.mp h with ⟨hhead, htail⟩
    by_cases he : e.1 < x
    · have h1 : ¬ x ≤ e.1 := not_le.mpr he
      rw [List.dropWhile_cons, List.filter_cons]
      simp [he, h1, dropWhile_expired_eq_filter_of_sorted x rest htail]
    · have h1 : x ≤ e.1 := not_lt.mp he
      rw [List.dropWhile_cons, List.filter_cons]
      simp [he, h1]
      symm
      rw [List.filter_eq_self]
      intro a ha
      exact decide_eq_true (le_trans h1 (hhead a ha))

/-- C5: the rolling-window bucket's consumable tokens equal the minimum of
the base bucket's consumable tokens and the window budget
`maxHistoryTokens - currentWindowSpend`, where the window spend is the sum of
the ledger entries that survive purging everything older than
`historyIntervalMs`. -/
theorem c5_rolling_window_consumable (b : RollingWindowTokenBucket) (now : ℚ)
    (hsorted : b.history.Pairwise (fun e1 e2 => e1.1 ≤ e2.1)) :
    (b.getConsumableTokens now).1 =
      min ((b.base.getConsumableTokens now).1)
        (b.maxHistoryTokens -
          ((b.history.filter
              (fun e => decide (now - b.historyIntervalMs ≤ e.1))).map
            (fun e => e.2)).sum) := by
  unfold RollingWindowTokenBucket.getConsumableTokens
    RollingWindowTokenBucket.countAndCleanupHistoricTokens
    RollingWindowTokenBucket.cleanupHistoricTokens
  rw [dropWhile_expired_eq_filter_of_sorted _ _ hsorted]
  exact min_comm _ _

/-- A concrete rolling-window bucket: 10 raw tokens, window budget 5 over a
100ms window, ledger entries at t=0 (2 tokens) and t=50 (1 token). -/
def cex5 : RollingWindowTokenBucket :=
  { base :=
      { tokenContent := 10
        maxTokens := some 10
        continuousRestoreRatePerMs := 0
        continuousRestoreLastTimestamp := 0
        tokenListeners := [] }
    historyIntervalMs := 100
    maxHistoryTokens := 5
    history := [(0, 2), (50, 1)] }

theorem c5_rolling_window_consumable_witness :
    (cex5.getConsumableTokens 120).1 = 4 := by
  have h := c5_rolling_window_consumable cex5 120
    (by simp [cex5, List.pairwise_cons])
  rw [h]
  norm_num [cex5, TokenBucket.getConsumableTokens,
    TokenBucket.restoreContinuousTokens, TokenBucket.addTokensToBucket]

/-- A concrete bucket with a pending waiter whose demand (1) is already within
the current content (5), and zero continuous rate. -/
def cex7 : TokenBucket :=
  { tokenContent := 5
    maxTokens := none
    continuousRestoreRatePerMs := 0
    continuousRestoreLastTimestamp := 0
    tokenListeners := [(1, 0)] }

/-- C7 counterexample: a waiter is pending and the aggregate continuous rate
is zero, yet the computed recheck wait time is `NaN` (`0 / 0`), not
`Infinity`, because the smallest demand is already within the current
content; no timer is armed either way. -/
theorem c7_zero_rate_wait_not_infinite :
    cex7.tokenListeners ≠ [] ∧
    cex7.continuousRestoreRatePerMs = 0 ∧
    (cex7.getWaitTimeForRecheck 0).1 = JsNumber.nan ∧
    JsNumber.nan ≠ JsNumber.posInf ∧
    (cex7.scheduleCheckListeners 0).1 = .noTimer := by
  refine ⟨by simp [cex7], rfl, ?_, by simp, ?_⟩
  · norm_num [cex7, TokenBucket.getWaitTimeForRecheck,
      TokenBucket.restoreContinuousTokens, TokenBucket.addTokensToBucket, jsDiv]
  · norm_num [cex7, TokenBucket.scheduleCheckListeners,
      TokenBucket.getWaitTimeForRecheck, TokenBucket.restoreContinuousTokens,
      TokenBucket.addTokensToBucket, jsDiv]

/-- C7 amended: with at least one pending waiter and zero aggregate
continuous rate, the recheck wait time is non-finite — `Infinity` exactly
when the smallest demand exceeds the (accrual-folded) content, and `NaN`
(`0 / 0`) when that demand is already within the content — and in either
case no recheck timer is armed, so only an external event can wake the
waiters. -/
theorem c7_zero_rate_arms_no_timer (b : TokenBucket) (now k : ℚ) (i : ℕ)
    (rest : List Listener)
    (hl : b.tokenListeners = (k, i) :: rest)
    (hksmallest : ∀ e ∈ rest, k ≤ e.1)
    (hrate : b.continuousRestoreRatePerMs = 0) :
    (((b.restoreContinuousTokens now).tokenContent < k →
        (b.getWaitTimeForRecheck now).1 = JsNumber.posInf) ∧
     (k ≤ (b.restoreContinuousTokens now).tokenContent →
        (b.getWaitTimeForRecheck now).1 = JsNumber.nan) ∧
     (b.getWaitTimeForRecheck now).1.isFinite = false ∧
     (b.scheduleCheckListeners now).1 = .noTimer) := by
  have hrate1 : (b.restoreContinuousTokens now).continuousRestoreRatePerMs = 0 :=
    hrate
  have hpair : b.getWaitTimeForRecheck now =
      (jsDiv (max 0 (k - (b.restoreContinuousTokens now).tokenContent)) 0,
       b.restoreContinuousTokens now) := by
    rw [TokenBucket.getWaitTimeForRecheck, hl]
    simp [hrate1]
  have hcase1 : (b.restoreContinuousTokens now).tokenContent < k →
      (b.getWaitTimeForRecheck now).1 = JsNumber.posInf := by
    intro h
    rw [hpair]
    have hmax : max 0 (k - (b.restoreContinuousTokens now).tokenContent) =
        k - (b.restoreContinuousTokens now).tokenContent :=
      max_eq_right (by linarith)
    have hpos : (0 : ℚ) < k - (b.restoreContinuousTokens now).tokenContent := by
      linarith
    simp [jsDiv, hmax, hpos]
  have hcase2 : k ≤ (b.restoreContinuousTokens now).tokenContent →
      (b.getWaitTimeForRecheck now).1 = JsNumber.nan := by
    intro h
    rw [hpair]
    have hmax : max 0 (k - (b.restoreContinuousTokens now).tokenContent) = 0 :=
      max_eq_left (by linarith)
    simp [jsDiv, hmax]
  have hnotfin : (b.getWaitTimeForRecheck now).1.isFinite = false := by
    rcases lt_or_le (b.restoreContinuousTokens now).tokenContent k with h | h
    · rw [hcase1 h]; rfl
    · rw [hcase2 h]; rfl
  refine ⟨hcase1, hcase2, hnotfin, ?_⟩
  rw [TokenBucket.scheduleCheckListeners]
  rw [if_pos (by rw [hl]; simp)]
  rw [hpair]
  rcases lt_or_le (b.restoreContinuousTokens now).tokenContent k with h | h
  · have := hcase1 h
    rw [hpair] at this
    simp only at this
    rw [this]
  · have := hcase2 h
    rw [hpair] at this
    simp only at this
    rw [this]

theorem c7_zero_rate_arms_no_timer_witness :
    (cex7.getWaitTimeForRecheck 0).1.isFinite = false ∧
    (cex7.scheduleCheckListeners 0).1 = .noTimer := by
  have h := c7_zero_rate_arms_no_timer cex7 0 1 0 [] rfl
    (by simp) rfl
  exact ⟨h.2.2.1, h.2.2.2⟩

/-- The check-pass loop resolves exactly the maximal prefix of waiters whose
demands are satisfiable, in ascending (list) order, and leaves the unsatisfied
remainder untouched. -/
theorem resolveListenersLoop_eq (c : ℚ) :
    ∀ l : List Listener,
      TokenBucket.resolveListenersLoop c l =
        (l.dropWhile (fun e => decide (e.1 ≤ c)),
         (l.takeWhile (fun e => decide (e.1 ≤ c))).map (fun e => e.2))
  | [] => rfl
  | (k, i) :: rest => by
    rw [TokenBucket.resolveListenersLoop, List.dropWhile_cons, List.takeWhile_cons]
    by_cases hk : k ≤ c
    · simp [hk, resolveListenersLoop_eq c rest]
    · simp [hk]

/-- C2: with two pending waiters of demands `a < b`, a check pass at the
moment the consumable tokens equal exactly `a` resolves only the `a`-waiter
(leaving the `b`-waiter pending); a check pass with consumable tokens at
least `b` resolves both, the `a`-waiter strictly first.  In general a check
pass walks waiters in ascending demand order and stops at the first
unsatisfied demand. -/
theorem c2_waiters_resolve_in_ascending_demand_order (bkt : TokenBucket)
    (now a b : ℚ) (i1 i2 : ℕ)
    (hl : bkt.tokenListeners = [(a, i1), (b, i2)]) (hab : a < b) :
    ((bkt.getConsumableTokens now).1 = a →
      (bkt.checkListeners now).2 = [i1] ∧
      (bkt.checkListeners now).1.tokenListeners = [(b, i2)]) ∧
    (b ≤ (bkt.getConsumableTokens now).1 →
      (bkt.checkListeners now).2 = [i1, i2] ∧
      (bkt.checkListeners now).1.tokenListeners = []) ∧
    (∀ (c : ℚ) (l : List Listener),
      TokenBucket.resolveListenersLoop c l =
        (l.dropWhile (fun e => decide (e.1 ≤ c)),
         (l.takeWhile (fun e => decide (e.1 ≤ c))).map (fun e => e.2))) := by
  have hlist : (bkt.restoreContinuousTokens now).tokenListeners =
      [(a, i1), (b, i2)] := hl
  refine ⟨?_, ?_, resolveListenersLoop_eq⟩
  · intro h
    have hc : (bkt.restoreContinuousTokens now).tokenContent = a := h
    have hb : ¬ b ≤ (bkt.restoreContinuousTokens now).tokenContent := by
      rw [hc]; exact not_le.mpr hab
    constructor <;>
      simp [TokenBucket.checkListeners, TokenBucket.getConsumableTokens, hl,
        hlist, TokenBucket.resolveListenersLoop, hc, hb, not_le.mpr hab]
  · intro h
    have hc : b ≤ (bkt.restoreContinuousTokens now).tokenContent := h
    have ha : a ≤ (bkt.restoreContinuousTokens now).tokenContent :=
      le_trans hab.le hc
    constructor <;>
      simp [TokenBucket.checkListeners, TokenBucket.getConsumableTokens, hl,
        hlist, TokenBucket.resolveListenersLoop, hc, ha]

theorem c2_waiters_resolve_in_ascending_demand_order_witness :
    (({ cex7 with tokenListeners := [(5, 1), (9, 2)] } : TokenBucket).checkListeners 0).2
        = [1] ∧
    (({ cex7 with tokenListeners := [(5, 1), (9, 2)] } :
        TokenBucket).checkListeners 0).1.tokenListeners = [(9, 2)] := by
  have h := (c2_waiters_resolve_in_ascending_demand_order
      { cex7 with tokenListeners := [(5, 1), (9, 2)] } 0 5 9 1 2 rfl
      (by norm_num)).1
      (by norm_num [TokenBucket.getConsumableTokens, cex7,
        TokenBucket.restoreContinuousTokens, TokenBucket.addTokensToBucket])
  exact ⟨h.1, h.2⟩

theorem c4_consumption_wins_or_cancel_aborts_witness :
    watcherStep 10 3 (some 2) (some 2) 5 = (.resolvedAwaiter, 10 - 3) ∧
    watcherStep 10 3 (some 9) (some 2) 4 = (.propagatedCanceled, 10) :=
  ⟨(c4_consumption_wins_or_cancel_aborts 10 3).1 2 5 (some 2)
      (fun ct hct => by cases hct; decide),
   (((c4_consumption_wins_or_cancel_aborts 10 3).2 2 4 (some 9)
        (by decide) (fun g hg => by cases hg; decide)).2.1
      (fun g hg => by cases hg; decide)).1⟩

namespace AwaiterQueues

/-- Well-formedness of the limiter's group collection, maintained by
`_addAwaiter`/`_removeFirstAwaiter`: strictly ascending priorities (the tree
keys are unique and sorted) and no empty group. -/
def WF (qs : AwaiterQueues) : Prop :=
  qs.Pairwise (fun g1 g2 => g1.1 < g2.1) ∧ ∀ g ∈ qs, g.2 ≠ []

/-- The descending-priority flattening of the group collection, each awaiter
tagged with its priority. -/
def flattenDesc (qs : AwaiterQueues) : List (ℚ × Awaiter) :=
  (qs.reverse.map (fun g => g.2.map (fun a => (g.1, a)))).flatten

/-- All awaiters of group `p`, front first. -/
def groupGet (qs : AwaiterQueues) (p : ℚ) : List Awaiter :=
  ((qs.filter (fun g => decide (g.1 = p))).map (fun g => g.2)).flatten

theorem groupGet_nil (p : ℚ) : groupGet [] p = [] := by
  simp [groupGet]

theorem groupGet_cons (g : ℚ × List Awaiter) (qs : AwaiterQueues) (p : ℚ) :
    groupGet (g :: qs) p =
      (if g.1 = p then g.2 else []) ++ groupGet qs p := by
  unfold groupGet
  rw [List.filter_cons]
  by_cases h : g.1 = p
  · rw [if_pos (by simpa using h), if_pos h]
    simp
  · rw [if_neg (by simpa using h), if_neg h]
    simp

theorem groupGet_eq_nil (qs : AwaiterQueues) (p : ℚ)
    (h : ∀ g ∈ qs, g.1 ≠ p) : groupGet qs p = [] := by
  unfold groupGet
  rw [List.filter_eq_nil_iff.mpr (fun g hg => by simpa using h g hg)]
  simp

theorem mem_addAwaiter_key :
    ∀ (qs : AwaiterQueues) (p : ℚ) (a : Awaiter) (g : ℚ × List Awaiter),
      g ∈ addAwaiter qs p a → g.1 = p ∨ ∃ q ∈ qs, g.1 = q.1
  | [], p, a, g, hg => by
    rw [addAwaiter] at hg
    simp at hg
    exact Or.inl (by rw [hg])
  | (p0, q0) :: rest, p, a, g, hg => by
    rw [addAwaiter] at hg
    by_cases hpe : p = p0
    · rw [if_pos hpe] at hg
      rcases List.mem_cons.mp hg with h1 | h2
      · exact Or.inr ⟨(p0, q0), List.mem_cons_self _ _, by rw [h1]⟩
      · exact Or.inr ⟨g, List.mem_cons_of_mem _ h2, rfl⟩
    · rw [if_neg hpe] at hg
      by_cases hlt : p < p0
      · rw [if_pos hlt] at hg
        rcases List.mem_cons.mp hg with h1 | h2
        · exact Or.inl (by rw [h1])
        · exact Or.inr ⟨g, h2, rfl⟩
      · rw [if_neg hlt] at hg
        rcases List.mem_cons.mp hg with h1 | h2
        · exact Or.inr ⟨(p0, q0), List.mem_cons_self _ _, by rw [h1]⟩
        · rcases mem_addAwaiter_key rest p a g h2 with h3 | ⟨q, hq, h4⟩
          · exact Or.inl h3
          · exact Or.inr ⟨q, List.mem_cons_of_mem _ hq, h4⟩

theorem addAwaiter_wf :
    ∀ (qs : AwaiterQueues) (p : ℚ) (a : Awaiter), WF qs →
      WF (addAwaiter qs p a)
  | [], p, a, _ => by
    constructor
    · rw [addAwaiter]
      exact List.pairwise_singleton _ _
    · rw [addAwaiter]
      intro g hg
      simp at hg
      rw [hg]
      simp
  | (p0, q0) :: rest, p, a, h => by
    obtain ⟨hpw, hne⟩ := h
    rcases List.pairwise_cons.mp hpw with ⟨hhead, htail⟩
    rw [addAwaiter]
    by_cases hpe : p = p0
    · rw [if_pos hpe]
      refine ⟨List.pairwise_cons.mpr ⟨hhead, htail⟩, ?_⟩
      intro g hg
      rcases List.mem_cons.mp hg with h1 | h2
      · rw [h1]
        simp
      · exact hne g (List.mem_cons_of_mem _ h2)
    · rw [if_neg hpe]
      by_cases hlt : p < p0
      · rw [if_pos hlt]
        constructor
        · refine List.pairwise_cons.mpr ⟨?_, hpw⟩
          intro g hg
          rcases List.mem_cons.mp hg with h1 | h2
          · rw [h1]
            exact hlt
          · exact lt_trans hlt (hhead g h2)
        · intro g hg
          rcases List.mem_cons.mp hg with h1 | h2
          · rw [h1]
            simp
          · rcases List.mem_cons.mp h2 with h3 | h4
            · rw [h3]
              exact hne (p0, q0) (List.mem_cons_self _ _)
            · exact hne g (List.mem_cons_of_mem _ h4)
      · rw [if_neg hlt]
        have hgt : p0 < p := lt_of_le_of_ne (not_lt.mp hlt) (fun he => hpe he.symm)
        have hwrest := addAwaiter_wf rest p a ⟨htail, fun g hg =>
          hne g (List.mem_cons_of_mem _ hg)⟩
        constructor
        · refine List.pairwise_cons.mpr ⟨?_, hwrest.1⟩
          intro g hg
          rcases mem_addAwaiter_key rest p a g hg with h1 | ⟨q, hq, h2⟩
          · rw [h1]
            exact hgt
          · rw [h2]
            exact hhead q hq
        · intro g hg
          rcases List.mem_cons.mp hg with h1 | h2
          · rw [h1]
            exact hne (p0, q0) (List.mem_cons_self _ _)
          · exact hwrest.2 g h2

theorem groupGet_addAwaiter :
    ∀ (qs : AwaiterQueues) (p : ℚ) (a : Awaiter), WF qs →
      groupGet (addAwaiter qs p a) p = groupGet qs p ++ [a] ∧
      ∀ q, q ≠ p → groupGet (addAwaiter qs p a) q = groupGet qs q
  | [], p, a, _ => by
    constructor
    · rw [addAwaiter, groupGet_cons, if_pos rfl]
      simp [groupGet_nil]
    · intro q hq
      rw [addAwaiter, groupGet_cons, if_neg (fun he => hq he.symm)]
      simp [groupGet_nil]
  | (p0, q0) :: rest, p, a, h => by
    obtain ⟨hpw, hne⟩ := h
    rcases List.pairwise_cons.mp hpw with ⟨hhead, htail⟩
    rw [addAwaiter]
    by_cases hpe : p = p0
    · subst hpe
      rw [if_pos rfl]
      have hrest : groupGet rest p = [] :=
        groupGet_eq_nil rest p (fun g hg => ne_of_gt (hhead g hg))
      constructor
      · rw [groupGet_cons, groupGet_cons, if_pos rfl, hrest]
        simp
      · intro q hq
        have hne2 : ¬ p = q := fun he => hq he.symm
        simp only [groupGet_cons, hne2, if_false, List.nil_append]
    · rw [if_neg hpe]
      by_cases hlt : p < p0
      · rw [if_pos hlt]
        have hrest0 : groupGet ((p0, q0) :: rest) p = [] := by
          rw [groupGet_cons, if_neg (fun he => hpe he.symm), List.nil_append]
          exact groupGet_eq_nil rest p
            (fun g hg => ne_of_gt (lt_trans hlt (hhead g hg)))
        constructor
        · rw [groupGet_cons, if_pos rfl, hrest0]
          simp
        · intro q hq
          rw [groupGet_cons, if_neg (fun he => hq he.symm), List.nil_append]
      · rw [if_neg hlt]
        have hwfrest : WF rest := ⟨htail, fun g hg =>
          hne g (List.mem_cons_of_mem _ hg)⟩
        have hrec := groupGet_addAwaiter rest p a hwfrest
        have hp0 : ¬ p0 = p := fun he => hpe he.symm
        constructor
        · rw [groupGet_cons, groupGet_cons, if_neg hp0, hrec.1]
          simp
        · intro q hq
          rw [groupGet_cons, groupGet_cons, hrec.2 q hq]

theorem addAll_wf :
    ∀ (ops : List (ℚ × Awaiter)) (qs : AwaiterQueues), WF qs →
      WF (addAll qs ops)
  | [], _, h => h
  | (p, a) :: rest, qs, h =>
    addAll_wf rest (addAwaiter qs p a) (addAwaiter_wf qs p a h)

theorem groupGet_addAll :
    ∀ (ops : List (ℚ × Awaiter)) (qs : AwaiterQueues), WF qs → ∀ p : ℚ,
      groupGet (addAll qs ops) p =
        groupGet qs p ++
          (ops.filter (fun x => decide (x.1 = p))).map (fun x => x.2)
  | [], qs, _, p => by simp [addAll]
  | (q, a) :: rest, qs, h, p => by
    rw [addAll]
    rw [groupGet_addAll rest (addAwaiter qs q a) (addAwaiter_wf qs q a h) p]
    rw [List.filter_cons]
    by_cases hqp : q = p
    · subst hqp
      rw [(groupGet_addAwaiter qs q a h).1]
      simp
    · rw [(groupGet_addAwaiter qs q a h).2 p (fun he => hqp he.symm)]
      simp [hqp]

theorem drainRev_eq_flatten :
    ∀ gs : AwaiterQueues, (∀ g ∈ gs, g.2 ≠ []) →
      drainRev gs = (gs.map (fun g => g.2.map (fun a => (g.1, a)))).flatten
  | [], _ => by simp [drainRev]
  | (p, []) :: gs, h => absurd rfl (h (p, []) (List.mem_cons_self _ _))
  | (p, a :: rest) :: gs, h => by
    rw [drainRev]
    by_cases hre : rest.isEmpty
    · rw [if_pos hre]
      have hrest : rest = [] := List.isEmpty_iff.mp hre
      subst hrest
      rw [drainRev_eq_flatten gs (fun g hg => h g (List.mem_cons_of_mem _ hg))]
      simp
    · rw [if_neg hre]
      rw [drainRev_eq_flatten ((p, rest) :: gs) ?_]
      · simp
      · intro g hg
        rcases List.mem_cons.mp hg with h1 | h2
        · rw [h1]
          simpa [List.isEmpty_iff] using hre
        · exact h g (List.mem_cons_of_mem _ h2)
termination_by gs => totalCount gs
decreasing_by
  all_goals simp [totalCount]

theorem drain_eq_flattenDesc (qs : AwaiterQueues)
    (hne : ∀ g ∈ qs, g.2 ≠ []) : drain qs = flattenDesc qs := by
  unfold drain flattenDesc
  exact drainRev_eq_flatten qs.reverse
    (fun g hg => hne g (List.mem_reverse.mp hg))

theorem pairwise_map_const_key (c : ℚ) :
    ∀ l : List Awaiter,
      (l.map (fun a => (c, a))).Pairwise
        (fun x y : ℚ × Awaiter => y.1 ≤ x.1)
  | [] => List.Pairwise.nil
  | a :: rest => by
    rw [List.map_cons]
    refine List.pairwise_cons.mpr ⟨?_, pairwise_map_const_key c rest⟩
    intro x hx
    rcases List.mem_map.mp hx with ⟨y, _, hy⟩
    rw [← hy]

theorem flattenDesc_pairwise (qs : AwaiterQueues)
    (hpw : qs.Pairwise (fun g1 g2 => g1.1 < g2.1)) :
    (flattenDesc qs).Pairwise (fun x y => y.1 ≤ x.1) := by
  unfold flattenDesc
  rw [List.pairwise_flatten]
  constructor
  · intro l hl
    rcases List.mem_map.mp hl with ⟨g, _, hg⟩
    rw [← hg]
    exact pairwise_map_const_key g.1 g.2
  · have hrev : qs.reverse.Pairwise (fun g1 g2 => g2.1 < g1.1) :=
      List.pairwise_reverse.mpr hpw
    refine List.Pairwise.map _ ?_ hrev
    intro g1 g2 h12 x hx y hy
    rcases List.mem_map.mp hx with ⟨u, _, hu⟩
    rcases List.mem_map.mp hy with ⟨v, _, hv⟩
    rw [← hu, ← hv]
    exact le_of_lt h12

theorem flattenDesc_filter :
    ∀ (qs : AwaiterQueues) (p : ℚ),
      qs.Pairwise (fun g1 g2 => g1.1 < g2.1) →
      (flattenDesc qs).filter (fun x => decide (x.1 = p)) =
        (groupGet qs p).map (fun a => (p, a))
  | [], p, _ => by simp [flattenDesc, groupGet]
  | g :: rest, p, hpw => by
    rcases List.pairwise_cons.mp hpw with ⟨hhead, htail⟩
    have hsplit : flattenDesc (g :: rest) =
        flattenDesc rest ++ g.2.map (fun a => (g.1, a)) := by
      unfold flattenDesc
      rw [List.reverse_cons, List.map_append, List.flatten_append]
      simp
    rw [hsplit, List.filter_append, flattenDesc_filter rest p htail,
      groupGet_cons]
    by_cases hgp : g.1 = p
    · subst hgp
      have hrest : groupGet rest g.1 = [] :=
        groupGet_eq_nil rest g.1 (fun q hq => ne_of_gt (hhead q hq))
      rw [hrest, if_pos rfl]
      rw [List.filter_eq_self.mpr (fun x hx => by
        rcases List.mem_map.mp hx with ⟨u, _, hu⟩
        rw [← hu]
        simp)]
      simp
    · rw [if_neg hgp, List.filter_eq_nil_iff.mpr (fun x hx => by
        rcases List.mem_map.mp hx with ⟨u, _, hu⟩
        rw [← hu]
        simpa using hgp)]
      simp

end AwaiterQueues

/-- C3: starting from an empty queue collection, after any arrival sequence
the watcher chain's service order (repeatedly serving the front of the
highest-priority non-empty group) is descending in priority — a later-served
awaiter never has higher priority than an earlier-served one — and restricted
to any single priority it is exactly the arrival order (FIFO), with nothing
lost or duplicated. -/
theorem c3_service_order_descending_priority_fifo (ops : List (ℚ × Awaiter)) :
    (AwaiterQueues.drain (AwaiterQueues.addAll [] ops)).Pairwise
        (fun x y => y.1 ≤ x.1) ∧
    ∀ p : ℚ,
      (AwaiterQueues.drain (AwaiterQueues.addAll [] ops)).filter
          (fun x => decide (x.1 = p)) =
        ops.filter (fun x => decide (x.1 = p)) := by
  have hwfnil : AwaiterQueues.WF [] := ⟨List.Pairwise.nil, by simp⟩
  have hwf : AwaiterQueues.WF (AwaiterQueues.addAll [] ops) :=
    AwaiterQueues.addAll_wf ops [] hwfnil
  have hd := AwaiterQueues.drain_eq_flattenDesc _ hwf.2
  constructor
  · rw [hd]
    exact AwaiterQueues.flattenDesc_pairwise _ hwf.1
  · intro p
    rw [hd, AwaiterQueues.flattenDesc_filter _ p hwf.1,
      AwaiterQueues.groupGet_addAll ops [] hwfnil p]
    have hnil : AwaiterQueues.groupGet [] p = [] := rfl
    rw [hnil, List.nil_append, List.map_map]
    refine Eq.trans (List.map_congr_left ?_) (List.map_id _)
    intro x hx
    rcases List.mem_filter.mp hx with ⟨_, hpx⟩
    have : x.1 = p := by simpa using hpx
    show (p, x.2) = x
    rw [← this]

end RateLimiterModel

